import Mathlib

/-!
# Verification of pg_plan_override

Shallow embedding of `src/pg_plan_override.c`: a PostgreSQL planner hook that
matches queries by queryId or LIKE-style pattern, temporarily applies GUC
overrides around planning, and restores the original values afterwards.

Strings of the C code (NUL-terminated `char *`) are modelled as `List Char`;
reading past the end yields the NUL character, as in C.
-/

/-- `*p` for a C string modelled as a list: the character at index `i`,
or NUL when `i` is past the end. -/
def chr (s : List Char) (i : Nat) : Char := s.getD i (Char.ofNat 0)

/-- Number of consecutive `'%'` characters at the head of a list.
Used to model the inner `while (*p == '%') p++;` loop of `pattern_match`. -/
def leadingPercents : List Char → Nat
  | [] => 0
  | c :: rest => if c = '%' then leadingPercents rest + 1 else 0

/-- Position reached by `while (*p == '%') p++;` starting from index `p`. -/
def skipPercents (pattern : List Char) (p : Nat) : Nat :=
  p + leadingPercents (pattern.drop p)

/-- Termination measure helper: the remembered text backtrack position
(capped by the current text position), or the text position itself when no
backtrack point exists. -/
def backKey (t : Nat) : Option (Nat × Nat) → Nat
  | none => t
  | some x => min x.1 t

/-- Main loop of `pattern_match` (pg_plan_override.c:535-564), with the two
remembered backtrack positions `t_backtrack`/`p_backtrack` as `back`.
After the loop, trailing `'%'` are skipped and the pattern must be
exhausted (lines 566-570). -/
def po_loop (text pattern : List Char) (t p : Nat) (back : Option (Nat × Nat)) : Bool :=
  if ht : t < text.length then
    if hpc : chr pattern p = '%' then
      -- skip consecutive %
      if hend : pattern.length ≤ skipPercents pattern p then
        true
      else
        -- remember backtrack positions
        po_loop text pattern t (skipPercents pattern p) (some (t, skipPercents pattern p))
    else if chr pattern p = '_' ∨ chr pattern p = chr text t then
      po_loop text pattern (t + 1) (p + 1) back
    else
      match back with
      | some (tb, pb) =>
        -- backtrack: advance text position after last %
        po_loop text pattern (tb + 1) pb (some (tb + 1, pb))
      | none => false
  else
    -- text exhausted: skip trailing % in pattern, match iff pattern exhausted
    pattern.length ≤ skipPercents pattern p
termination_by
  (text.length - backKey t back, pattern.length - p, text.length - t)
decreasing_by
  · -- '%' branch: the pattern index strictly advances past the '%'
    have hplen : p < pattern.length := by
      by_contra hge
      have : pattern.getD p (Char.ofNat 0) = Char.ofNat 0 :=
        List.getD_eq_default _ _ (by omega)
      rw [chr, this] at hpc
      exact absurd hpc (by decide)
    have hdrop : pattern.drop p = pattern.get ⟨p, hplen⟩ :: pattern.drop (p + 1) := by
      rw [List.drop_eq_getElem_cons hplen]
      rfl
    have hskip : p + 1 ≤ skipPercents pattern p := by
      have hget : pattern.get ⟨p, hplen⟩ = '%' := by
        have : chr pattern p = pattern.get ⟨p, hplen⟩ := by
          simp [chr, List.getD_eq_getElem?_getD, List.getElem?_eq_getElem hplen]
        rw [this] at hpc
        exact hpc
      rw [skipPercents, hdrop, leadingPercents, hget, if_pos rfl]
      omega
    rcases back with _ | ⟨tb, pb⟩
    · -- no backtrack point: first component equal, second strictly smaller
      simp only [backKey, Nat.min_self]
      apply Prod.Lex.right
      apply Prod.Lex.left
      omega
    · simp only [backKey]
      rcases Nat.lt_or_ge tb t with hlt | hge
      · -- tb < t: first component strictly decreases
        have h1 : tb ⊓ t = tb := by omega
        have h2 : t ⊓ t = t := by omega
        rw [h1, h2]
        apply Prod.Lex.left
        omega
      · -- tb ≥ t: first component equal, second strictly decreases
        have h1 : tb ⊓ t = t := by omega
        have h2 : t ⊓ t = t := by omega
        rw [h1, h2]
        apply Prod.Lex.right
        apply Prod.Lex.left
        omega
  · -- literal/'_' match branch: text and pattern both advance
    rcases back with _ | ⟨tb, pb⟩
    · simp only [backKey]
      apply Prod.Lex.left
      omega
    · simp only [backKey]
      rcases Nat.lt_or_ge t tb with hgt | hle
      · have h1 : tb ⊓ t = t := by omega
        have h2 : tb ⊓ (t + 1) = t + 1 := by omega
        rw [h1, h2]
        apply Prod.Lex.left
        omega
      · have h1 : tb ⊓ t = tb := by omega
        have h2 : tb ⊓ (t + 1) = tb := by omega
        rw [h1, h2]
        rcases Nat.lt_or_ge p pattern.length with hp | hp
        · apply Prod.Lex.right
          apply Prod.Lex.left
          omega
        · have h3 : pattern.length - p = 0 := by omega
          have h4 : pattern.length - (p + 1) = 0 := by omega
          rw [h3, h4]
          apply Prod.Lex.right
          apply Prod.Lex.right
          omega
  · -- backtrack branch: the remembered text position strictly advances
    simp only [backKey, Nat.min_self]
    apply Prod.Lex.left
    omega

/-- `pattern_match` (pg_plan_override.c:527-571): anchored LIKE-style matcher
with `%` (zero or more characters) and `_` (exactly one character). -/
def pattern_match (text pattern : List Char) : Bool :=
  po_loop text pattern 0 0 none

/-- Fuel-indexed copy of `po_loop`, step for step.  It is structurally
recursive, hence kernel-computable; `po_loopF_eq_po_loop` below transfers its
results to `po_loop`, which lets concrete pattern-match vectors be settled by
`decide`. -/
def po_loopF : Nat → List Char → List Char → Nat → Nat → Option (Nat × Nat) → Option Bool
  | 0, _, _, _, _, _ => none
  | fuel + 1, text, pattern, t, p, back =>
    if t < text.length then
      if chr pattern p = '%' then
        if pattern.length ≤ skipPercents pattern p then
          some true
        else
          po_loopF fuel text pattern t (skipPercents pattern p)
            (some (t, skipPercents pattern p))
      else if chr pattern p = '_' ∨ chr pattern p = chr text t then
        po_loopF fuel text pattern (t + 1) (p + 1) back
      else
        match back with
        | some (tb, pb) => po_loopF fuel text pattern (tb + 1) pb (some (tb + 1, pb))
        | none => some false
    else
      some (decide (pattern.length ≤ skipPercents pattern p))

/-- Modelled from the spec (spec 4.1): declarative wildcard semantics.
`%` matches zero or more arbitrary characters, `_` matches exactly one
character, any other character matches itself; whole-string anchored,
case-sensitive, no escape mechanism.  This is the specification side of the
refinement proof for `pattern_match`. -/
def globMatch : List Char → List Char → Bool
  | [], [] => true
  | [], _ :: _ => false
  | c :: p', [] => c = '%' && globMatch p' []
  | c :: p', d :: t' =>
    if c = '%' then globMatch p' (d :: t') || globMatch (c :: p') t'
    else if c = '_' then globMatch p' t'
    else c = d && globMatch p' t'
termination_by p t => p.length + t.length
decreasing_by
  all_goals simp only [List.length_cons]
  all_goals omega

/-- Whether a wildcard-free segment matches, character for character (`_` or
an equal character), a prefix of the text. -/
def segMatch : List Char → List Char → Bool
  | [], _ => true
  | _ :: _, [] => false
  | c :: cs, d :: ds => (c = '_' || c = d) && segMatch cs ds

/-- Specification value of a `po_loop` state: with no backtrack point, the
remaining pattern must match the remaining text; with backtrack point
`(tb, pb)`, the pattern from `pb` preceded by a fresh `%` must match the text
from `tb`. -/
def poLoopSpec (text pattern : List Char) (t p : Nat) :
    Option (Nat × Nat) → Bool
  | none => globMatch (pattern.drop p) (text.drop t)
  | some x => globMatch ('%' :: pattern.drop x.2) (text.drop x.1)

/-- Invariant of a reachable `po_loop` state with a backtrack point: the
pattern between `pb` and `p` is a `%`-free segment matching the text between
`tb` and `t` character for character. -/
def poLoopInv (text pattern : List Char) (t p : Nat) :
    Option (Nat × Nat) → Prop
  | none => True
  | some x => ∃ seg segT,
      pattern.drop x.2 = seg ++ pattern.drop p ∧
      text.drop x.1 = segT ++ text.drop t ∧
      seg.length = segT.length ∧
      '%' ∉ seg ∧
      segMatch seg (text.drop x.1) = true

/-! ## GUC state and the override session

The ambient GUC namespace is a map from setting names to optional string
values (`none` = no explicit value / default).  `GucModel` abstracts the parts
of the GUC machinery the extension relies on: which names exist
(`GetConfigOption` with `missing_ok = false` raises on unknown names) and
which values pass validation (`set_config_option` with `elevel = 0` raises
`ERROR` on a rejected value at `PGC_S_SESSION`). -/

abbrev GucName := String

abbrev GucValue := String

abbrev GucState := GucName → Option GucValue

/-- Point update of the ambient GUC state. -/
def setVal (s : GucState) (n : GucName) (v : Option GucValue) : GucState :=
  fun m => if m = n then v else s m

/-- Host-side behaviour of the GUC machinery: which setting names exist and
which values their check hooks accept. -/
structure GucModel where
  validName : GucName → Bool
  validValue : GucName → GucValue → Bool

/-- Failures observable through the planner hook (PostgreSQL `ERROR`s). -/
inductive PgError where
  | unknownGuc (n : GucName)
  | invalidValue (n : GucName) (v : GucValue)
  | opError (code : Nat)
deriving DecidableEq, Repr

/-- `GetConfigOption(name, false, false)` (pg_plan_override.c:209): raises on
an unknown name, otherwise reads the current value without side effects. -/
def GetConfigOption (M : GucModel) (n : GucName) (s : GucState) :
    Except PgError (Option GucValue) :=
  if M.validName n then .ok (s n) else .error (.unknownGuc n)

/-- `set_config_option(name, value, PGC_USERSET, PGC_S_SESSION,
GUC_ACTION_SET, true, 0, false)` (pg_plan_override.c:216, 247, 260): raises on
an unknown name or a rejected value, otherwise updates the setting; `none`
clears the setting back to its default.  A raising call leaves the state
unchanged. -/
def set_config_option (M : GucModel) (n : GucName) (v : Option GucValue)
    (s : GucState) : Except PgError GucState :=
  if M.validName n then
    if v.all (M.validValue n) then .ok (setVal s n v)
    else .error (.invalidValue n (v.getD ""))
  else
    .error (.unknownGuc n)

/-- The snapshot loop (pg_plan_override.c:206-211): read the current value of
each named setting in order; the first raising read propagates. -/
def snapshotGucs (M : GucModel) (gucs : List (GucName × GucValue)) (s : GucState) :
    Except PgError (List (Option GucValue)) :=
  match gucs with
  | [] => .ok []
  | (n, _) :: rest =>
    match GetConfigOption M n s with
    | .ok v =>
      match snapshotGucs M rest s with
      | .ok vs => .ok (v :: vs)
      | .error e => .error e
    | .error e => .error e

/-- The apply loop (pg_plan_override.c:214-222): set each named setting to its
override value in order.  A raising assignment stops the loop; the returned
state keeps the assignments already made, paired with the error. -/
def applyGucs (M : GucModel) (gucs : List (GucName × GucValue)) (s : GucState) :
    GucState × Option PgError :=
  match gucs with
  | [] => (s, none)
  | (n, v) :: rest =>
    match set_config_option M n (some v) s with
    | .ok s' => applyGucs M rest s'
    | .error e => (s, some e)

/-- The restore loop (pg_plan_override.c:245-253 and 258-266): set each named
setting back to its snapshotted value in order.  A raising assignment stops
the loop; the returned state keeps the restores already made, paired with the
error. -/
def restoreGucs (M : GucModel) (names : List GucName)
    (saved : List (Option GucValue)) (s : GucState) : GucState × Option PgError :=
  match names, saved with
  | n :: ns, v :: vs =>
    match set_config_option M n v s with
    | .ok s' => restoreGucs M ns vs s'
    | .error e => (s, some e)
  | _, _ => (s, none)

/-! ## Rules, rule matching and the rule cache -/

/-- `OverrideRule` (pg_plan_override.c:36-44).  The parallel `guc_names` /
`guc_values` arrays of length `num_gucs` are modelled as one ordered list of
pairs. -/
structure OverrideRule where
  query_id : Int
  query_pattern : Option (List Char)
  gucs : List (GucName × GucValue)
  priority : Int
deriving DecidableEq, Repr

/-- The pass-1 condition of `find_matching_rule` (pg_plan_override.c:503-504):
`cached_rules[i].query_id != 0 && cached_rules[i].query_id == queryId`. -/
def qidPred (qid : Int) (r : OverrideRule) : Bool :=
  r.query_id != 0 && r.query_id == qid

/-- The pass-2 condition of `find_matching_rule` (pg_plan_override.c:514-515):
`cached_rules[i].query_pattern != NULL && pattern_match(query_string, ...)`. -/
def patPred (text : List Char) (r : OverrideRule) : Bool :=
  match r.query_pattern with
  | some pat => pattern_match text pat
  | none => false

/-- Pass 1 of `find_matching_rule` (pg_plan_override.c:501-507): first rule in
stored order with a non-zero `query_id` equal to the request's. -/
def scan_by_query_id (rules : List OverrideRule) (qid : Int) : Option OverrideRule :=
  match rules with
  | [] => none
  | r :: rest =>
    if qidPred qid r then some r else scan_by_query_id rest qid

/-- Pass 2 of `find_matching_rule` (pg_plan_override.c:512-518): first rule in
stored order whose pattern is set and matches the query text. -/
def scan_by_pattern (rules : List OverrideRule) (text : List Char) : Option OverrideRule :=
  match rules with
  | [] => none
  | r :: rest =>
    if patPred text r then some r else scan_by_pattern rest text

/-- `find_matching_rule` (pg_plan_override.c:482-521). -/
def find_matching_rule (rules : List OverrideRule) (queryId : Int)
    (query_string : Option (List Char)) : Option OverrideRule :=
  if rules.isEmpty then
    none
  else
    match (if queryId ≠ 0 then scan_by_query_id rules queryId else none) with
    | some r => some r
    | none =>
      match query_string with
      | some text => scan_by_pattern rules text
      | none => none

/-- The cache- and guard-related static state of the module
(pg_plan_override.c:58-65) together with the ambient GUC state. -/
structure EngineState where
  gucs : GucState
  cached_rules : List OverrideRule
  cache_loaded_at : Int
  loading_rules : Bool

/-- The module's GUC configuration surface (pg_plan_override.c:51-53). -/
structure EngineConfig where
  po_enabled : Bool
  po_debug : Bool
  po_cache_ttl : Int

/-- Outcome of the SPI interaction of one `load_rules` call: connection
failure, missing `plan_override.override_rules` table, failing rule query, or
a successfully returned (already priority-ordered, enabled-filtered) rule
list. -/
inductive StoreResult where
  | connectFail
  | tableMissing
  | queryFail (code : Int)
  | rows (rules : List OverrideRule)
deriving DecidableEq, Repr

/-- `TimestampDifferenceExceeds(start, stop, msec)` from PostgreSQL:
`(stop - start) >= msec * 1000` in microseconds. -/
def TimestampDifferenceExceeds (start_time stop_time msec : Int) : Bool :=
  stop_time - start_time ≥ msec * 1000

/-- `load_rules` (pg_plan_override.c:278-395): sets the reentrancy flag,
frees the cache, then loads via SPI.  Returns the new state and the warning
reported, if any.  `now` models `GetCurrentTimestamp()`. -/
def load_rules (store : StoreResult) (now : Int) (st : EngineState) :
    EngineState × Option String :=
  -- loading_rules = true; free_rule_cache()
  let st0 : EngineState := { st with cached_rules := [], loading_rules := true }
  match store with
  | .connectFail =>
    -- SPI_connect failed: warning, cache_loaded_at NOT advanced
    ({ st0 with loading_rules := false },
     some "pg_plan_override: SPI_connect failed, cache not loaded")
  | .tableMissing =>
    -- rules table absent: no warning, cache_loaded_at advanced
    ({ st0 with cache_loaded_at := now, loading_rules := false }, none)
  | .queryFail _ =>
    -- rule query failed: warning, cache_loaded_at NOT advanced
    ({ st0 with loading_rules := false },
     some "pg_plan_override: failed to load rules (SPI error)")
  | .rows rules =>
    -- zero or more rules loaded: cache replaced, cache_loaded_at advanced
    ({ st0 with cached_rules := rules, cache_loaded_at := now,
                loading_rules := false }, none)

/-- `pg_plan_override_refresh_cache` (pg_plan_override.c:577-582): the
SQL-callable forced refresh, a bare call to `load_rules`. -/
def pg_plan_override_refresh_cache (store : StoreResult) (now : Int)
    (st : EngineState) : EngineState × Option String :=
  load_rules store now st

/-- The staleness condition of the planner hook (pg_plan_override.c:173-176). -/
def cacheIsStale (cfg : EngineConfig) (now : Int) (st : EngineState) : Bool :=
  st.cache_loaded_at = 0 ||
    TimestampDifferenceExceeds st.cache_loaded_at now (cfg.po_cache_ttl * 1000)

/-! ## The planner hook -/

/-- Observable actions of one `po_planner` call, for stating how often the
cache is refreshed and whether matching/overriding happened at all. -/
inductive Event where
  | refreshEv
  | matchEv
  | applyEv
  | invokeEv
  | restoreEv
deriving DecidableEq, Repr

/-- External collaborators of one `po_planner` call: the GUC machinery
behaviour, the wrapped planner (`prev_planner_hook` or `standard_planner`,
reading and possibly mutating the ambient GUC state and possibly raising),
the rule store behaviour and the clock readings. -/
structure Env (R : Type) where
  M : GucModel
  op : GucState → Except PgError R × GucState
  store : StoreResult
  now : Int
  loadNow : Int

/-- Result of one `po_planner` call: the value returned or error re-raised,
the static state afterwards, and the trace of observable actions. -/
structure RunOut (R : Type) where
  result : Except PgError R
  state : EngineState
  trace : List Event

/-- The refresh step of `po_planner` (pg_plan_override.c:172-179): refresh the
cache via `load_rules` when the TTL expired or no load has happened yet. -/
def po_refresh_step {R : Type} (cfg : EngineConfig) (env : Env R)
    (st : EngineState) : EngineState × List Event :=
  if cacheIsStale cfg env.now st then
    ((load_rules env.store env.loadNow st).1, [Event.refreshEv])
  else
    (st, [])

/-- `po_planner` (pg_plan_override.c:142-272).  The `PG_TRY`/`PG_CATCH`
structure of lines 229-269 is modelled exactly: an error raised by the
restore loop inside `PG_TRY` transfers control to `PG_CATCH`, whose restore
loop runs from the start on the partially restored state; an error raised
inside `PG_CATCH` propagates immediately, replacing the pending error. -/
def po_planner {R : Type} (cfg : EngineConfig) (env : Env R) (queryId : Int)
    (query_string : Option (List Char)) (st : EngineState) : RunOut R :=
  -- Fast path: disabled or reentrancy guard active
  if ¬cfg.po_enabled ∨ st.loading_rules then
    { result := (env.op st.gucs).1,
      state := { st with gucs := (env.op st.gucs).2 },
      trace := [Event.invokeEv] }
  else
    -- Refresh cache if TTL expired
    let st1 := (po_refresh_step cfg env st).1
    let ev1 := (po_refresh_step cfg env st).2
    -- Find a matching rule
    match find_matching_rule st1.cached_rules queryId query_string with
    | none =>
      -- No match: pass through
      { result := (env.op st1.gucs).1,
        state := { st1 with gucs := (env.op st1.gucs).2 },
        trace := ev1 ++ [Event.matchEv, Event.invokeEv] }
    | some rule =>
      -- Save current GUC values
      match snapshotGucs env.M rule.gucs st1.gucs with
      | .error e =>
        { result := .error e, state := st1, trace := ev1 ++ [Event.matchEv] }
      | .ok saved =>
        -- Set override GUC values
        let ap := applyGucs env.M rule.gucs st1.gucs
        match ap.2 with
        | some e =>
          -- an apply assignment raised: no restore, error propagates
          { result := .error e, state := { st1 with gucs := ap.1 },
            trace := ev1 ++ [Event.matchEv, Event.applyEv] }
        | none =>
          -- PG_TRY: call planner with overrides in effect
          let names := rule.gucs.map Prod.fst
          let opOut := env.op ap.1
          match opOut.1 with
          | .ok result =>
            -- restore original GUC values
            let r1 := restoreGucs env.M names saved opOut.2
            match r1.2 with
            | none =>
              { result := .ok result, state := { st1 with gucs := r1.1 },
                trace := ev1 ++ [Event.matchEv, Event.applyEv, Event.invokeEv,
                                 Event.restoreEv] }
            | some eRest =>
              -- PG_CATCH: restore again from the partially restored state
              let r2 := restoreGucs env.M names saved r1.1
              match r2.2 with
              | none =>
                -- PG_RE_THROW the restore error
                { result := .error eRest, state := { st1 with gucs := r2.1 },
                  trace := ev1 ++ [Event.matchEv, Event.applyEv, Event.invokeEv,
                                   Event.restoreEv] }
              | some eRest2 =>
                -- error inside PG_CATCH propagates, replacing the pending one
                { result := .error eRest2, state := { st1 with gucs := r2.1 },
                  trace := ev1 ++ [Event.matchEv, Event.applyEv, Event.invokeEv,
                                   Event.restoreEv] }
          | .error eOp =>
            -- PG_CATCH: restore GUCs even on error
            let r1 := restoreGucs env.M names saved opOut.2
            match r1.2 with
            | none =>
              -- PG_RE_THROW the original error
              { result := .error eOp, state := { st1 with gucs := r1.1 },
                trace := ev1 ++ [Event.matchEv, Event.applyEv, Event.invokeEv,
                                 Event.restoreEv] }
            | some eRest =>
              -- error inside PG_CATCH propagates, replacing the original
              { result := .error eRest, state := { st1 with gucs := r1.1 },
                trace := ev1 ++ [Event.matchEv, Event.applyEv, Event.invokeEv,
                                 Event.restoreEv] }

/-! ## Hypothesis predicates and concrete fixtures

`savedOk`/`ruleGucsOk` package, as decidable predicates, the conditions under
which every snapshot read and every apply/restore assignment of a rule
succeeds: all names exist, all override values pass validation, and the
values currently stored for the rule's names pass validation (so that
restoring them succeeds as well). -/

/-- The value currently stored for `n` (if any) would be accepted when
written back. -/
def savedOk (M : GucModel) (s : GucState) (n : GucName) : Bool :=
  (s n).all (M.validValue n)

/-- Every assignment performed for this rule's settings list succeeds. -/
def ruleGucsOk (M : GucModel) (s : GucState) (gucs : List (GucName × GucValue)) : Bool :=
  gucs.all fun p => M.validName p.1 && M.validValue p.1 p.2 && savedOk M s p.1

/-- Fixture: GUC machinery accepting every name and every value. -/
def allValidM : GucModel := { validName := fun _ => true, validValue := fun _ _ => true }

/-- Fixture: GUC machinery rejecting every value for the setting `"b"`. -/
def rejectBM : GucModel :=
  { validName := fun _ => true, validValue := fun n _ => !(n == "b") }

/-- Fixture: ambient GUC state with `"a" = "0"` and `"x" = "0"`. -/
def gucsAX : GucState :=
  fun n => if n = "a" then some "0" else if n = "x" then some "0" else none

/-- Fixture: rule matching queryId 42 and overriding `"x"`. -/
def ruleX : OverrideRule :=
  { query_id := 42, query_pattern := none, gucs := [("x", "on")], priority := 0 }

/-- Fixture: rule matching queryId 42 and overriding `"a"` then `"b"`. -/
def ruleAB : OverrideRule :=
  { query_id := 42, query_pattern := none, gucs := [("a", "1"), ("b", "2")],
    priority := 0 }

/-- Fixture: the default module configuration. -/
def cfgStd : EngineConfig := { po_enabled := true, po_debug := false, po_cache_ttl := 60 }

/-- Fixture: engine state holding `ruleX`, freshly loaded at time 5. -/
def stX : EngineState :=
  { gucs := gucsAX, cached_rules := [ruleX], cache_loaded_at := 5, loading_rules := false }

/-- Fixture: engine state holding `ruleAB`, freshly loaded at time 5. -/
def stAB : EngineState :=
  { gucs := gucsAX, cached_rules := [ruleAB], cache_loaded_at := 5, loading_rules := false }

/-- Fixture: environment whose wrapped planner raises `opError 7` without
touching the GUC state; the clock stands at 5, so the cache in `stX`/`stAB`
is fresh. -/
def envFail : Env Nat :=
  { M := allValidM, op := fun s => (.error (.opError 7), s), store := .rows [],
    now := 5, loadNow := 9 }

/-- Fixture: like `envFail` but with the value-rejecting GUC machinery. -/
def envFailRejectB : Env Nat :=
  { M := rejectBM, op := fun s => (.error (.opError 7), s), store := .rows [],
    now := 5, loadNow := 9 }

/-- Fixture: environment whose wrapped planner returns 99 without touching
the GUC state. -/
def envOk : Env Nat :=
  { M := allValidM, op := fun s => (.ok 99, s), store := .rows [],
    now := 5, loadNow := 9 }

/-- Fixture: the module configuration with the hook disabled. -/
def cfgDisabled : EngineConfig :=
  { po_enabled := false, po_debug := false, po_cache_ttl := 60 }

/-- Fixture: engine state with a stale cache (never loaded). -/
def stStale : EngineState :=
  { gucs := gucsAX, cached_rules := [], cache_loaded_at := 0, loading_rules := false }

/-- Fixture: engine state observed mid-load (reentrancy flag set), with a
stale cache. -/
def stLoading : EngineState :=
  { gucs := gucsAX, cached_rules := [ruleX], cache_loaded_at := 0, loading_rules := true }

/-! ## Properties of the pattern matcher -/

theorem chr_of_lt {s : List Char} {i : Nat} (h : i < s.length) :
    chr s i = s.get ⟨i, h⟩ := by
  simp [chr, List.getD_eq_getElem?_getD, List.getElem?_eq_getElem h]

theorem chr_of_ge {s : List Char} {i : Nat} (h : s.length ≤ i) :
    chr s i = Char.ofNat 0 :=
  List.getD_eq_default _ _ h

theorem chr_mem_of_lt {s : List Char} {i : Nat} (h : i < s.length) :
    chr s i ∈ s := by
  rw [chr_of_lt h]
  exact List.get_mem s i h

theorem leadingPercents_le (l : List Char) : leadingPercents l ≤ l.length := by
  induction l with
  | nil => simp [leadingPercents]
  | cons c rest ih =>
    rw [leadingPercents]
    split_ifs <;> simp <;> omega

theorem leadingPercents_eq_zero {l : List Char} (h : ∀ c ∈ l, c ≠ '%') :
    leadingPercents l = 0 := by
  cases l with
  | nil => rfl
  | cons c rest => exact if_neg (h c (List.mem_cons_self c rest))

theorem leadingPercents_eq_length_iff (l : List Char) :
    leadingPercents l = l.length ↔ ∀ c ∈ l, c = '%' := by
  induction l with
  | nil => simp [leadingPercents]
  | cons c rest ih =>
    rw [leadingPercents]
    by_cases hc : c = '%'
    · rw [if_pos hc]
      simp only [List.length_cons, Nat.add_right_cancel_iff, ih, hc,
        List.mem_cons, forall_eq_or_imp, true_and]
    · rw [if_neg hc]
      constructor
      · intro h
        simp at h
      · intro h
        exact absurd (h c (List.mem_cons_self c rest)) hc

/-- Transfer of fuel-indexed runs to the loop itself. -/
theorem po_loopF_eq_po_loop :
    ∀ (fuel : Nat) (text pattern : List Char) (t p : Nat)
      (back : Option (Nat × Nat)) (b : Bool),
      po_loopF fuel text pattern t p back = some b →
      po_loop text pattern t p back = b := by
  intro fuel
  induction fuel with
  | zero => intro text pattern t p back b h; simp [po_loopF] at h
  | succ f ih =>
    intro text pattern t p back b h
    rw [po_loop.eq_def]
    simp only [po_loopF] at h
    split_ifs at h ⊢ with h1 h2 h3 h4
    · exact Option.some_inj.mp h
    · exact ih _ _ _ _ _ _ h
    · exact ih _ _ _ _ _ _ h
    · cases back with
      | some x => exact ih _ _ _ _ _ _ h
      | none => exact Option.some_inj.mp h
    · exact Option.some_inj.mp h

/-- After the main loop (text exhausted), trailing `%` are skipped; a pattern
without `%` therefore matches iff it too is exhausted. -/
theorem noWild_end (text pattern : List Char) (hw : ∀ c ∈ pattern, c ≠ '%')
    (k : Nat) (hk : text.length ≤ k) :
    po_loop text pattern k k none = decide (text.drop k = pattern.drop k) := by
  rw [po_loop.eq_def, dif_neg (by omega : ¬k < text.length)]
  have hlp : leadingPercents (pattern.drop k) = 0 :=
    leadingPercents_eq_zero fun c hc => hw c (List.drop_subset _ _ hc)
  rw [skipPercents, hlp, List.drop_eq_nil_of_le hk]
  simp only [Nat.add_zero, decide_eq_decide]
  rw [eq_comm, List.drop_eq_nil_iff]

/-- Main loop of the matcher on a wildcard-free pattern: plain character-wise
comparison of the remaining text and the remaining pattern. -/
theorem noWild_loop (text pattern : List Char) (hnul : Char.ofNat 0 ∉ text)
    (hw : ∀ c ∈ pattern, c ≠ '%' ∧ c ≠ '_') :
    ∀ (n k : Nat), text.length ≤ k + n →
      po_loop text pattern k k none = decide (text.drop k = pattern.drop k) := by
  intro n
  induction n with
  | zero =>
    intro k hk
    exact noWild_end text pattern (fun c hc => (hw c hc).1) k (by omega)
  | succ n ih =>
    intro k hk
    by_cases hkt : k < text.length
    case neg => exact noWild_end text pattern (fun c hc => (hw c hc).1) k (by omega)
    case pos =>
      rw [po_loop.eq_def, dif_pos hkt]
      have hnp : ¬chr pattern k = '%' := by
        by_cases hkp : k < pattern.length
        · exact (hw _ (chr_mem_of_lt hkp)).1
        · rw [chr_of_ge (by omega)]; decide
      have hnu : ¬chr pattern k = '_' := by
        by_cases hkp : k < pattern.length
        · exact (hw _ (chr_mem_of_lt hkp)).2
        · rw [chr_of_ge (by omega)]; decide
      rw [dif_neg hnp]
      by_cases heq : chr pattern k = chr text k
      · rw [if_pos (Or.inr heq)]
        have htne : chr text k ≠ Char.ofNat 0 := by
          rw [chr_of_lt hkt]
          intro hcon
          exact hnul (hcon ▸ List.get_mem text k hkt)
        have hkp : k < pattern.length := by
          by_contra hge
          rw [chr_of_ge (by omega)] at heq
          exact htne heq.symm
        rw [ih (k + 1) (by omega)]
        simp only [decide_eq_decide]
        rw [List.drop_eq_getElem_cons hkt, List.drop_eq_getElem_cons hkp]
        have hheads : text[k] = pattern[k] := by
          have h1 : chr text k = text.get ⟨k, hkt⟩ := chr_of_lt hkt
          have h2 : chr pattern k = pattern.get ⟨k, hkp⟩ := chr_of_lt hkp
          rw [h1, h2] at heq
          exact heq.symm
        rw [hheads]
        constructor
        · intro h
          rw [h]
        · intro h
          injection h
      · rw [if_neg (by rintro (h | h); exact hnu h; exact heq h)]
        show false = decide (text.drop k = pattern.drop k)
        have hne : text.drop k ≠ pattern.drop k := by
          by_cases hkp : k < pattern.length
          · intro hcon
            rw [List.drop_eq_getElem_cons hkt, List.drop_eq_getElem_cons hkp] at hcon
            injection hcon with hh _
            have h1 : chr text k = text.get ⟨k, hkt⟩ := chr_of_lt hkt
            have h2 : chr pattern k = pattern.get ⟨k, hkp⟩ := chr_of_lt hkp
            exact heq (by rw [h1, h2]; exact hh.symm)
          · intro hcon
            rw [List.drop_eq_nil_of_le (by omega : pattern.length ≤ k)] at hcon
            have := congrArg List.length hcon
            simp at this
            omega
        rw [decide_eq_false hne]

theorem globMatch_nil_iff (q : List Char) :
    globMatch q [] = true ↔ ∀ c ∈ q, c = '%' := by
  induction q with
  | nil => simp [globMatch]
  | cons c q' ih =>
    rw [globMatch]
    simp only [Bool.and_eq_true, decide_eq_true_eq, ih, List.mem_cons,
      forall_eq_or_imp]

theorem globMatch_percent_cons (q t' : List Char) (d : Char) :
    globMatch ('%' :: q) (d :: t') =
      (globMatch q (d :: t') || globMatch ('%' :: q) t') := by
  rw [globMatch, if_pos rfl]

theorem globMatch_percent_nil (q : List Char) :
    globMatch ('%' :: q) [] = globMatch q [] := by
  rw [globMatch]
  simp

theorem globMatch_percent_all {q : List Char} (h : ∀ c ∈ q, c = '%') :
    ∀ u : List Char, globMatch ('%' :: q) u = true := by
  intro u
  induction u with
  | nil =>
    rw [globMatch_percent_nil]
    exact (globMatch_nil_iff q).mpr h
  | cons d u' ih =>
    rw [globMatch_percent_cons]
    simp [ih]

theorem globMatch_prepend_percent {q u : List Char} (h : globMatch q u = true) :
    globMatch ('%' :: q) u = true := by
  cases u with
  | nil => rw [globMatch_percent_nil]; exact h
  | cons d u' => rw [globMatch_percent_cons]; simp [h]

theorem globMatch_percent_percent (q : List Char) :
    ∀ u : List Char, globMatch ('%' :: '%' :: q) u = globMatch ('%' :: q) u := by
  intro u
  induction u with
  | nil => rw [globMatch_percent_nil, globMatch_percent_nil]
  | cons d u' ih =>
    rw [globMatch_percent_cons, globMatch_percent_cons, ih]
    cases hg : globMatch q (d :: u') <;> simp [hg, Bool.or_assoc]

theorem globMatch_replicate_percent (q : List Char) :
    ∀ (k : Nat) (u : List Char),
      globMatch (List.replicate (k + 1) '%' ++ q) u = globMatch ('%' :: q) u := by
  intro k
  induction k with
  | zero => intro u; rfl
  | succ k ih =>
    intro u
    have : List.replicate (k + 1 + 1) '%' ++ q
        = '%' :: '%' :: (List.replicate k '%' ++ q) := by
      simp [List.replicate_succ]
    rw [this, globMatch_percent_percent]
    have h2 : ('%' :: (List.replicate k '%' ++ q))
        = List.replicate (k + 1) '%' ++ q := by
      simp [List.replicate_succ]
    rw [h2, ih]

theorem globMatch_split {q u : List Char} :
    globMatch ('%' :: q) u = true ↔ ∃ m, globMatch q (u.drop m) = true := by
  induction u with
  | nil =>
    rw [globMatch_percent_nil]
    constructor
    · intro h; exact ⟨0, h⟩
    · rintro ⟨m, hm⟩; simpa using hm
  | cons d u' ih =>
    rw [globMatch_percent_cons]
    simp only [Bool.or_eq_true, ih]
    constructor
    · rintro (h | ⟨m, hm⟩)
      · exact ⟨0, h⟩
      · exact ⟨m + 1, hm⟩
    · rintro ⟨m, hm⟩
      cases m with
      | zero => exact Or.inl hm
      | succ m => exact Or.inr ⟨m, hm⟩

theorem globMatch_percent_mono {q u : List Char} {m : Nat}
    (h : globMatch ('%' :: q) (u.drop m) = true) :
    globMatch ('%' :: q) u = true := by
  obtain ⟨k, hk⟩ := globMatch_split.mp h
  rw [List.drop_drop] at hk
  exact globMatch_split.mpr ⟨_, hk⟩

theorem segMatch_append (s1 : List Char) :
    ∀ (s2 u : List Char),
      segMatch (s1 ++ s2) u = (segMatch s1 u && segMatch s2 (u.drop s1.length)) := by
  induction s1 with
  | nil => intro s2 u; simp [segMatch]
  | cons c cs ih =>
    intro s2 u
    cases u with
    | nil => simp [segMatch]
    | cons d ds =>
      rw [List.cons_append, segMatch, segMatch, ih]
      simp [Bool.and_assoc]

theorem globMatch_seg {seg : List Char} (hseg : '%' ∉ seg) :
    ∀ (q u : List Char),
      globMatch (seg ++ q) u = (segMatch seg u && globMatch q (u.drop seg.length)) := by
  induction seg with
  | nil => intro q u; simp [segMatch]
  | cons c cs ih =>
    intro q u
    have hc : c ≠ '%' := fun hc => hseg (hc ▸ List.mem_cons_self c cs)
    have hcs : '%' ∉ cs := fun hm => hseg (List.mem_cons_of_mem c hm)
    cases u with
    | nil =>
      rw [List.cons_append, globMatch, segMatch]
      simp [hc]
    | cons d ds =>
      rw [List.cons_append, globMatch, if_neg (by simpa using hc), segMatch,
        ih hcs]
      by_cases hcu : c = '_'
      · rw [if_pos hcu]
        simp [hcu, Bool.and_assoc]
      · rw [if_neg hcu]
        simp [hcu, Bool.and_assoc]

theorem leadingPercents_struct (l : List Char) :
    l = List.replicate (leadingPercents l) '%' ++ l.drop (leadingPercents l) := by
  induction l with
  | nil => rfl
  | cons c rest ih =>
    rw [leadingPercents]
    by_cases hc : c = '%'
    · rw [if_pos hc, List.replicate_succ, List.cons_append, List.drop_succ_cons]
      rw [hc]
      exact congrArg _ ih
    · rw [if_neg hc]
      simp

theorem skipPercents_all_iff (pattern : List Char) (p : Nat) :
    pattern.length ≤ skipPercents pattern p ↔ ∀ c ∈ pattern.drop p, c = '%' := by
  rw [← leadingPercents_eq_length_iff, skipPercents]
  have h1 := leadingPercents_le (pattern.drop p)
  rw [List.length_drop] at h1 ⊢
  omega

theorem bool_eq_of_imp {a b : Bool} (h1 : a = true → b = true)
    (h2 : b = true → a = true) : a = b := by
  cases a <;> cases b <;> simp_all

theorem chr_lt_of_ne {s : List Char} {i : Nat} {c : Char} (h : chr s i = c)
    (hc : c ≠ Char.ofNat 0) : i < s.length := by
  by_contra hge
  rw [chr_of_ge (Nat.le_of_not_lt hge)] at h
  exact hc h.symm

theorem chr_getElem {s : List Char} {i : Nat} (h : i < s.length) :
    chr s i = s[i] := by
  rw [chr_of_lt h]
  exact List.get_eq_getElem s ⟨i, h⟩

theorem globMatch_step {c d : Char} (p' t' : List Char) (hc : c ≠ '%')
    (h : c = '_' ∨ c = d) : globMatch (c :: p') (d :: t') = globMatch p' t' := by
  rw [globMatch, if_neg hc]
  rcases h with h | h
  · rw [if_pos h]
  · by_cases hcu : c = '_'
    · rw [if_pos hcu]
    · rw [if_neg hcu, h]
      simp

theorem globMatch_mismatch {c d : Char} (p' t' : List Char) (hcp : c ≠ '%')
    (hcu : c ≠ '_') (hcd : c ≠ d) : globMatch (c :: p') (d :: t') = false := by
  rw [globMatch, if_neg hcp, if_neg hcu]
  simp [hcd]

theorem globMatch_nil_cons (d : Char) (t' : List Char) :
    globMatch [] (d :: t') = false := by
  rw [globMatch]

/-- At a mismatching loop position the remaining pattern cannot match the
remaining text. -/
theorem globMatch_drop_mismatch (text pattern : List Char) (t p : Nat)
    (ht : t < text.length) (hpc : ¬chr pattern p = '%')
    (hcond : ¬(chr pattern p = '_' ∨ chr pattern p = chr text t)) :
    globMatch (pattern.drop p) (text.drop t) = false := by
  push_neg at hcond
  rw [List.drop_eq_getElem_cons ht]
  by_cases hp : p < pattern.length
  · rw [List.drop_eq_getElem_cons hp]
    refine globMatch_mismatch _ _ ?_ ?_ ?_
    · exact fun h => hpc ((chr_getElem hp).trans h)
    · exact fun h => hcond.1 ((chr_getElem hp).trans h)
    · exact fun h => hcond.2 ((chr_getElem hp).trans (h.trans (chr_getElem ht).symm))
  · rw [List.drop_eq_nil_of_le (Nat.le_of_not_lt hp)]
    exact globMatch_nil_cons _ _

/-- An all-`%` pattern remainder that starts with `%` matches any text. -/
theorem globMatch_drop_all_percent {pattern : List Char} {p : Nat}
    (hpc : chr pattern p = '%') (hall : ∀ c ∈ pattern.drop p, c = '%')
    (u : List Char) : globMatch (pattern.drop p) u = true := by
  have hplt : p < pattern.length := chr_lt_of_ne hpc (by decide)
  rw [List.drop_eq_getElem_cons hplt,
    show pattern[p] = '%' from ((chr_getElem hplt).symm.trans hpc)]
  refine globMatch_percent_all ?_ u
  intro c hc
  apply hall
  rw [List.drop_eq_getElem_cons hplt]
  exact List.mem_cons_of_mem _ hc

/-- Skipping the consecutive `%` run from a `%` position collapses it to a
single `%`. -/
theorem globMatch_drop_skip (pattern : List Char) (p : Nat)
    (hpc : chr pattern p = '%') (u : List Char) :
    globMatch (pattern.drop p) u
      = globMatch ('%' :: pattern.drop (skipPercents pattern p)) u := by
  have hplt : p < pattern.length := chr_lt_of_ne hpc (by decide)
  have hstruct := leadingPercents_struct (pattern.drop p)
  have hL : 1 ≤ leadingPercents (pattern.drop p) := by
    rw [List.drop_eq_getElem_cons hplt, leadingPercents,
      if_pos ((chr_getElem hplt).symm.trans hpc)]
    omega
  obtain ⟨k, hk⟩ : ∃ k, leadingPercents (pattern.drop p) = k + 1 :=
    ⟨leadingPercents (pattern.drop p) - 1, by omega⟩
  have hdd : (pattern.drop p).drop (leadingPercents (pattern.drop p))
      = pattern.drop (skipPercents pattern p) := by
    rw [List.drop_drop, skipPercents, Nat.add_comm]
  rw [hk] at hstruct hdd
  conv_lhs => rw [hstruct, hdd]
  exact globMatch_replicate_percent _ k u

/-- The main loop of `pattern_match` computes, at every state satisfying the
backtrack invariant, exactly the declarative wildcard semantics of that
state.  Text is assumed NUL-free (C-representable). -/
theorem po_loop_eq_globSpec (text pattern : List Char)
    (hnul : Char.ofNat 0 ∉ text) :
    ∀ (t p : Nat) (back : Option (Nat × Nat)),
      poLoopInv text pattern t p back →
      po_loop text pattern t p back = poLoopSpec text pattern t p back := by
  refine po_loop.induct text pattern
    (fun t p back => poLoopInv text pattern t p back →
      po_loop text pattern t p back = poLoopSpec text pattern t p back)
    ?_ ?_ ?_ ?_ ?_ ?_
  · -- '%' branch, pattern exhausted after the % run: return true
    intro t p back ht hpc hend hInv
    have hval : po_loop text pattern t p back = true := by
      rw [po_loop.eq_def, dif_pos ht, dif_pos hpc, dif_pos hend]
    rw [hval]
    have hall := (skipPercents_all_iff pattern p).mp hend
    cases back with
    | none =>
      rw [poLoopSpec]
      exact (globMatch_drop_all_percent hpc hall _).symm
    | some x =>
      obtain ⟨seg, segT, hP, hT, hlen, hpct, hsm⟩ := hInv
      rw [poLoopSpec]
      symm
      apply globMatch_prepend_percent
      rw [hP, globMatch_seg hpct]
      have hdropT : (text.drop x.1).drop seg.length = text.drop t := by
        rw [hT, hlen, List.drop_left]
      rw [hdropT, hsm, globMatch_drop_all_percent hpc hall]
      rfl
  · -- '%' branch: remember backtrack positions and continue
    intro t p back ht hpc hend ih hInv
    have hstep : po_loop text pattern t p back
        = po_loop text pattern t (skipPercents pattern p)
            (some (t, skipPercents pattern p)) := by
      rw [po_loop.eq_def, dif_pos ht, dif_pos hpc, dif_neg hend]
    have hInv2 : poLoopInv text pattern t (skipPercents pattern p)
        (some (t, skipPercents pattern p)) :=
      ⟨[], [], by simp, by simp, rfl, by simp, rfl⟩
    rw [hstep, ih hInv2]
    cases back with
    | none =>
      rw [poLoopSpec, poLoopSpec]
      exact (globMatch_drop_skip pattern p hpc _).symm
    | some x =>
      obtain ⟨seg, segT, hP, hT, hlen, hpct, hsm⟩ := hInv
      rw [poLoopSpec, poLoopSpec]
      have hdropT : (text.drop x.1).drop seg.length = text.drop t := by
        rw [hT, hlen, List.drop_left]
      refine bool_eq_of_imp ?_ ?_
      · intro h
        apply globMatch_prepend_percent
        rw [hP, globMatch_seg hpct, hdropT, hsm,
          globMatch_drop_skip pattern p hpc, h]
        rfl
      · intro h
        obtain ⟨m, hm⟩ := globMatch_split.mp h
        rw [hP, globMatch_seg hpct, Bool.and_eq_true] at hm
        have hm2 := hm.2
        have hcomm : ((text.drop x.1).drop m).drop seg.length
            = (text.drop t).drop m := by
          rw [List.drop_drop, Nat.add_comm, ← List.drop_drop, hdropT]
        rw [hcomm, globMatch_drop_skip pattern p hpc] at hm2
        exact globMatch_percent_mono hm2
  · -- literal/'_' match branch
    intro t p back ht hpc hcond ih hInv
    have htne : chr text t ≠ Char.ofNat 0 := by
      rw [chr_getElem ht]
      intro hcon
      exact hnul (hcon ▸ List.getElem_mem ht)
    have hplt : p < pattern.length := by
      rcases hcond with h | h
      · exact chr_lt_of_ne h (by decide)
      · exact chr_lt_of_ne h htne
    have hstep : po_loop text pattern t p back
        = po_loop text pattern (t + 1) (p + 1) back := by
      rw [po_loop.eq_def, dif_pos ht, dif_neg hpc, if_pos hcond]
    have hc : pattern[p] ≠ '%' := fun h => hpc ((chr_getElem hplt).trans h)
    have hcd : pattern[p] = '_' ∨ pattern[p] = text[t] := by
      rcases hcond with h | h
      · exact Or.inl ((chr_getElem hplt).symm.trans h)
      · exact Or.inr ((chr_getElem hplt).symm.trans (h.trans (chr_getElem ht)))
    cases back with
    | none =>
      rw [hstep, ih trivial, poLoopSpec, poLoopSpec,
        List.drop_eq_getElem_cons hplt, List.drop_eq_getElem_cons ht,
        globMatch_step _ _ hc hcd]
    | some x =>
      obtain ⟨seg, segT, hP, hT, hlen, hpct, hsm⟩ := hInv
      have hdropT : (text.drop x.1).drop seg.length = text.drop t := by
        rw [hT, hlen, List.drop_left]
      have hInv2 : poLoopInv text pattern (t + 1) (p + 1) (some x) := by
        refine ⟨seg ++ [pattern[p]], segT ++ [text[t]], ?_, ?_, ?_, ?_, ?_⟩
        · rw [hP, List.drop_eq_getElem_cons hplt, List.append_cons]
        · rw [hT, List.drop_eq_getElem_cons ht, List.append_cons]
        · simp [hlen]
        · intro hmem
          rcases List.mem_append.mp hmem with hm | hm
          · exact hpct hm
          · exact hc (List.mem_singleton.mp hm).symm
        · rw [segMatch_append, hsm, hdropT, List.drop_eq_getElem_cons ht]
          simp only [segMatch, Bool.true_and, Bool.and_true,
            Bool.or_eq_true, decide_eq_true_eq]
          exact hcd
      rw [hstep, ih hInv2, poLoopSpec, poLoopSpec]
  · -- mismatch with a backtrack point: resume after the remembered %
    intro t p ht hpc hcond tb pb ih hInv
    obtain ⟨seg, segT, hP, hT, hlen, hpct, hsm⟩ := hInv
    have hstep : po_loop text pattern t p (some (tb, pb))
        = po_loop text pattern (tb + 1) pb (some (tb + 1, pb)) := by
      rw [po_loop.eq_def, dif_pos ht, dif_neg hpc, if_neg hcond]
    have hInv2 : poLoopInv text pattern (tb + 1) pb (some (tb + 1, pb)) :=
      ⟨[], [], by simp, by simp, rfl, by simp, rfl⟩
    rw [hstep, ih hInv2, poLoopSpec, poLoopSpec]
    have htb : tb < text.length := by
      have h1 : text.drop t ≠ [] := by
        intro hcon
        rw [List.drop_eq_nil_iff] at hcon
        omega
      have h2 : ¬(text.drop (tb, pb).1 = []) := by
        rw [hT]
        intro hcon
        rcases List.append_eq_nil.mp hcon with ⟨_, hc2⟩
        exact h1 hc2
      rw [List.drop_eq_nil_iff] at h2
      omega
    have hfirst : globMatch (pattern.drop (tb, pb).2) (text.drop (tb, pb).1)
        = false := by
      rw [hP, globMatch_seg hpct]
      have hdropT : (text.drop (tb, pb).1).drop seg.length = text.drop t := by
        rw [hT, hlen, List.drop_left]
      rw [hdropT, globMatch_drop_mismatch text pattern t p ht hpc hcond]
      simp
    rw [show ((tb, pb).1 : Nat) = tb from rfl] at hfirst ⊢
    rw [show ((tb, pb).2 : Nat) = pb from rfl] at hfirst ⊢
    rw [List.drop_eq_getElem_cons htb, globMatch_percent_cons,
      ← List.drop_eq_getElem_cons htb, hfirst]
    simp
  · -- mismatch without a backtrack point: fail
    intro t p ht hpc hcond hInv
    have hval : po_loop text pattern t p none = false := by
      rw [po_loop.eq_def, dif_pos ht, dif_neg hpc, if_neg hcond]
    rw [hval, poLoopSpec]
    exact (globMatch_drop_mismatch text pattern t p ht hpc hcond).symm
  · -- text exhausted: match iff the remaining pattern is all %
    intro t p back ht hInv
    have hval : po_loop text pattern t p back
        = decide (pattern.length ≤ skipPercents pattern p) := by
      rw [po_loop.eq_def, dif_neg ht]
    have hTt : text.drop t = [] := List.drop_eq_nil_of_le (Nat.le_of_not_lt ht)
    rw [hval]
    cases back with
    | none =>
      rw [poLoopSpec, hTt]
      refine bool_eq_of_imp ?_ ?_
      · intro h
        exact (globMatch_nil_iff _).mpr
          ((skipPercents_all_iff pattern p).mp (of_decide_eq_true h))
      · intro h
        exact decide_eq_true
          ((skipPercents_all_iff pattern p).mpr ((globMatch_nil_iff _).mp h))
    | some x =>
      obtain ⟨seg, segT, hP, hT, hlen, hpct, hsm⟩ := hInv
      rw [poLoopSpec]
      have hTx : text.drop x.1 = segT := by
        rw [hT, hTt, List.append_nil]
      refine bool_eq_of_imp ?_ ?_
      · intro h
        have hall := (skipPercents_all_iff pattern p).mp (of_decide_eq_true h)
        apply globMatch_prepend_percent
        rw [hP, globMatch_seg hpct]
        have hdropT : (text.drop x.1).drop seg.length = text.drop t := by
          rw [hT, hlen, List.drop_left]
        rw [hdropT, hTt, hsm, (globMatch_nil_iff _).mpr hall]
        rfl
      · intro h
        obtain ⟨m, hm⟩ := globMatch_split.mp h
        rw [hP, globMatch_seg hpct, Bool.and_eq_true] at hm
        have hm2 := hm.2
        have hnil : ((text.drop x.1).drop m).drop seg.length = [] := by
          apply List.drop_eq_nil_of_le
          rw [List.length_drop, hTx, ← hlen]
          omega
        rw [hnil] at hm2
        exact decide_eq_true
          ((skipPercents_all_iff pattern p).mpr ((globMatch_nil_iff _).mp hm2))

/-- The C matcher agrees with the declarative wildcard semantics on every
NUL-free (C-representable) text. -/
theorem pattern_match_eq_globMatch (text pattern : List Char)
    (hnul : Char.ofNat 0 ∉ text) :
    pattern_match text pattern = globMatch pattern text := by
  have h := po_loop_eq_globSpec text pattern hnul 0 0 none trivial
  rw [pattern_match, h, poLoopSpec, List.drop_zero, List.drop_zero]

/-- **C5.** `pattern_match` is an anchored whole-string matcher: on a pattern
with no `%`/`_` it is string equality (for C-representable, i.e. NUL-free,
text); with the text exhausted, a remaining pattern matches iff it consists
only of `%`; the six concrete vectors of spec 8 hold; and on every NUL-free
text it coincides with the declarative wildcard semantics `globMatch`
(`%` = zero or more characters, `_` = exactly one, no escaping). -/
theorem c5_pattern_match_semantics :
    (∀ text pattern : List Char, Char.ofNat 0 ∉ text →
        (∀ c ∈ pattern, c ≠ '%' ∧ c ≠ '_') →
        pattern_match text pattern = decide (text = pattern)) ∧
    (∀ pattern : List Char, (pattern_match [] pattern = true ↔ ∀ c ∈ pattern, c = '%')) ∧
    (pattern_match "abc".toList "a%c".toList = true ∧
     pattern_match "ac".toList "a%c".toList = true ∧
     pattern_match "abc".toList "a_c".toList = true ∧
     pattern_match "abbc".toList "a_c".toList = false ∧
     pattern_match "abc".toList "%b%".toList = true ∧
     pattern_match "anything".toList "%".toList = true) ∧
    (∀ text pattern : List Char, Char.ofNat 0 ∉ text →
        pattern_match text pattern = globMatch pattern text) := by
  refine ⟨?_, ?_, ⟨?_, ?_, ?_, ?_, ?_, ?_⟩, ?_⟩
  · intro text pattern hnul hw
    have h := noWild_loop text pattern hnul hw text.length 0 (by omega)
    rw [pattern_match, h]
    simp only [List.drop_zero]
  · intro pattern
    rw [pattern_match, po_loop.eq_def,
      dif_neg (by simp : ¬(0 : Nat) < ([] : List Char).length)]
    rw [skipPercents]
    simp only [List.drop_zero, Nat.zero_add, decide_eq_true_eq]
    have hle := leadingPercents_le pattern
    rw [← leadingPercents_eq_length_iff]
    omega
  · exact po_loopF_eq_po_loop 64 _ _ 0 0 none true (by decide)
  · exact po_loopF_eq_po_loop 64 _ _ 0 0 none true (by decide)
  · exact po_loopF_eq_po_loop 64 _ _ 0 0 none true (by decide)
  · exact po_loopF_eq_po_loop 64 _ _ 0 0 none false (by decide)
  · exact po_loopF_eq_po_loop 64 _ _ 0 0 none true (by decide)
  · exact po_loopF_eq_po_loop 64 _ _ 0 0 none true (by decide)
  · exact pattern_match_eq_globMatch

/-- Witness for C5: the wildcard-free part applied at concrete inputs. -/
theorem c5_witness :
    pattern_match "abc".toList "abc".toList = decide ("abc".toList = "abc".toList) ∧
    pattern_match "abc".toList "abd".toList = decide ("abc".toList = "abd".toList) ∧
    (pattern_match [] "%%".toList = true ↔ ∀ c ∈ "%%".toList, c = '%') :=
  ⟨c5_pattern_match_semantics.1 "abc".toList "abc".toList (by decide) (by decide),
   c5_pattern_match_semantics.1 "abc".toList "abd".toList (by decide) (by decide),
   c5_pattern_match_semantics.2.1 "%%".toList⟩

/-! ## Properties of rule matching -/

theorem scan_by_query_id_eq_find (rules : List OverrideRule) (qid : Int) :
    scan_by_query_id rules qid = rules.find? (qidPred qid) := by
  induction rules with
  | nil => rfl
  | cons r rest ih =>
    rw [scan_by_query_id]
    cases h : qidPred qid r
    · rw [if_neg (by simp [h]), List.find?_cons_of_neg _ (by simp [h]), ih]
    · rw [if_pos (by simp [h]), List.find?_cons_of_pos _ h]

theorem scan_by_pattern_eq_find (rules : List OverrideRule) (text : List Char) :
    scan_by_pattern rules text = rules.find? (patPred text) := by
  induction rules with
  | nil => rfl
  | cons r rest ih =>
    rw [scan_by_pattern]
    cases h : patPred text r
    · rw [if_neg (by simp [h]), List.find?_cons_of_neg _ (by simp [h]), ih]
    · rw [if_pos (by simp [h]), List.find?_cons_of_pos _ h]

/-- **C4.** `find_matching_rule` is the two-pass resolution the spec
describes: with a non-zero queryId, the first stored rule whose `query_id` is
non-zero and equal to it wins, independently of the query text and of any
pattern rules; only when that pass finds nothing and the text is present is
the first stored rule with a set, matching pattern returned; otherwise the
result is `none`. -/
theorem c4_find_matching_rule_two_pass (rules : List OverrideRule) (qid : Int)
    (qs : Option (List Char)) :
    (find_matching_rule rules qid qs =
      if qid ≠ 0 ∧ (rules.find? (qidPred qid)).isSome
      then rules.find? (qidPred qid)
      else
        match qs with
        | some text => rules.find? (patPred text)
        | none => none) ∧
    (∀ r : OverrideRule, qidPred qid r = true ↔ r.query_id ≠ 0 ∧ r.query_id = qid) ∧
    (∀ (r : OverrideRule) (text : List Char),
      patPred text r = true ↔
        ∃ pat, r.query_pattern = some pat ∧ pattern_match text pat = true) := by
  refine ⟨?_, ?_, ?_⟩
  · rw [find_matching_rule.eq_def]
    by_cases hemp : rules.isEmpty
    · rw [if_pos hemp]
      have hnil : rules = [] := List.isEmpty_iff.mp hemp
      subst hnil
      rw [if_neg (by simp)]
      cases qs with
      | none => rfl
      | some text => simp
    · rw [if_neg hemp]
      by_cases hq : qid ≠ 0
      · rw [if_pos hq, scan_by_query_id_eq_find]
        cases hf : rules.find? (qidPred qid) with
        | some r =>
          rw [if_pos ⟨hq, rfl⟩]
        | none =>
          rw [if_neg (by simp)]
          cases qs with
          | none => rfl
          | some text => exact scan_by_pattern_eq_find rules text
      · rw [if_neg hq, if_neg (by simp [hq])]
        cases qs with
        | none => rfl
        | some text => exact scan_by_pattern_eq_find rules text
  · intro r
    simp [qidPred]
  · intro r text
    cases hp : r.query_pattern <;> simp [patPred, hp]

/-! ## Properties of the override session -/

theorem set_config_option_valid (M : GucModel) (n : GucName) (v : Option GucValue)
    (s : GucState) (hn : M.validName n = true) (hv : v.all (M.validValue n) = true) :
    set_config_option M n v s = .ok (setVal s n v) := by
  rw [set_config_option, if_pos hn, if_pos hv]

theorem snapshotGucs_ok (M : GucModel) :
    ∀ (gucs : List (GucName × GucValue)) (s : GucState),
      (∀ p ∈ gucs, M.validName p.1 = true) →
      snapshotGucs M gucs s = .ok (gucs.map fun p => s p.1) := by
  intro gucs
  induction gucs with
  | nil => intro s _; rfl
  | cons g rest ih =>
    obtain ⟨n, v⟩ := g
    intro s h
    rw [snapshotGucs, GetConfigOption, if_pos (h (n, v) (List.mem_cons_self _ _)),
      ih s fun p hp => h p (List.mem_cons_of_mem _ hp)]
    rfl

/-- Restoring a snapshot of `s0` (for settings whose names exist and whose
snapshotted values pass validation) succeeds and maps every listed name back
to its value in `s0`, leaving every other name untouched. -/
theorem restoreGucs_snapshot (M : GucModel) :
    ∀ (gucs : List (GucName × GucValue)) (s0 t : GucState),
      (∀ p ∈ gucs, M.validName p.1 = true ∧ savedOk M s0 p.1 = true) →
      (restoreGucs M (gucs.map Prod.fst) (gucs.map fun p => s0 p.1) t).2 = none ∧
      ∀ n, (restoreGucs M (gucs.map Prod.fst) (gucs.map fun p => s0 p.1) t).1 n =
        if n ∈ gucs.map Prod.fst then s0 n else t n := by
  intro gucs
  induction gucs with
  | nil =>
    intro s0 t _
    exact ⟨rfl, fun n => by simp [restoreGucs]⟩
  | cons g rest ih =>
    obtain ⟨m, v⟩ := g
    intro s0 t h
    have hm := h (m, v) (List.mem_cons_self _ _)
    have hset : set_config_option M m (s0 m) t = .ok (setVal t m (s0 m)) :=
      set_config_option_valid M m (s0 m) t hm.1 hm.2
    have key : restoreGucs M (((m, v) :: rest).map Prod.fst)
        (((m, v) :: rest).map fun p => s0 p.1) t =
        restoreGucs M (rest.map Prod.fst) (rest.map fun p => s0 p.1)
          (setVal t m (s0 m)) := by
      rw [List.map_cons, List.map_cons, restoreGucs, hset]
    rw [key]
    have ihh := ih s0 (setVal t m (s0 m)) fun p hp => h p (List.mem_cons_of_mem _ hp)
    refine ⟨ihh.1, ?_⟩
    intro n
    rw [ihh.2 n]
    simp only [List.map_cons, List.mem_cons]
    by_cases hmem : n ∈ rest.map Prod.fst
    · rw [if_pos hmem, if_pos (Or.inr hmem)]
    · rw [if_neg hmem]
      by_cases hnm : n = m
      · rw [if_pos (Or.inl hnm)]
        simp [setVal, hnm]
      · rw [if_neg (by rintro (hc | hc); exact hnm hc; exact hmem hc)]
        simp [setVal, hnm]

theorem applyGucs_ok (M : GucModel) :
    ∀ (gucs : List (GucName × GucValue)) (s : GucState),
      (∀ p ∈ gucs, M.validName p.1 = true ∧ M.validValue p.1 p.2 = true) →
      (applyGucs M gucs s).2 = none := by
  intro gucs
  induction gucs with
  | nil => intro s _; rfl
  | cons g rest ih =>
    obtain ⟨n, v⟩ := g
    intro s h
    have hn := h (n, v) (List.mem_cons_self _ _)
    have hset : set_config_option M n (some v) s = .ok (setVal s n (some v)) :=
      set_config_option_valid M n (some v) s hn.1 hn.2
    rw [applyGucs, hset]
    exact ih _ fun p hp => h p (List.mem_cons_of_mem _ hp)

/-- The apply loop never writes a name outside the rule's settings list, on
the success path as well as on the partial-failure path. -/
theorem applyGucs_not_mem (M : GucModel) :
    ∀ (gucs : List (GucName × GucValue)) (s : GucState) (n : GucName),
      n ∉ gucs.map Prod.fst → (applyGucs M gucs s).1 n = s n := by
  intro gucs
  induction gucs with
  | nil => intro s n _; rfl
  | cons g rest ih =>
    obtain ⟨m, v⟩ := g
    intro s n hn
    simp only [List.map_cons, List.mem_cons] at hn
    push_neg at hn
    rw [applyGucs]
    cases hset : set_config_option M m (some v) s with
    | error e => rfl
    | ok s' =>
      have hs' : s' = setVal s m (some v) := by
        rw [set_config_option] at hset
        split_ifs at hset with h1 h2
        · exact (Except.ok.inj hset).symm
      rw [ih s' n hn.2, hs']
      simp [setVal, hn.1]

/-- The restore loop never writes a name outside the given name list, on the
success path as well as on the partial-failure path. -/
theorem restoreGucs_not_mem (M : GucModel) :
    ∀ (names : List GucName) (saved : List (Option GucValue)) (s : GucState)
      (n : GucName), n ∉ names → (restoreGucs M names saved s).1 n = s n := by
  intro names
  induction names with
  | nil => intro saved s n _; cases saved <;> rfl
  | cons m rest ih =>
    intro saved s n hn
    simp only [List.mem_cons] at hn
    push_neg at hn
    cases saved with
    | nil => rfl
    | cons w ws =>
      rw [restoreGucs]
      cases hset : set_config_option M m w s with
      | error e => rfl
      | ok s' =>
        have hs' : s' = setVal s m w := by
          rw [set_config_option] at hset
          split_ifs at hset with h1 h2
          · exact (Except.ok.inj hset).symm
        rw [ih ws s' n hn.2, hs']
        simp [setVal, hn.1]

theorem ruleGucsOk_spec {M : GucModel} {s : GucState}
    {gucs : List (GucName × GucValue)} (h : ruleGucsOk M s gucs = true) :
    ∀ p ∈ gucs, M.validName p.1 = true ∧ M.validValue p.1 p.2 = true ∧
      savedOk M s p.1 = true := by
  intro p hp
  rw [ruleGucsOk, List.all_eq_true] at h
  have := h p hp
  simp only [Bool.and_eq_true] at this
  exact ⟨this.1.1, this.1.2, this.2⟩

/-- **C8.** On the successful path, the snapshot/apply/restore triple is the
identity on the ambient GUC state: every name of the rule (duplicates
included) ends at its pre-apply value, and names outside the rule's settings
list are written by neither the apply loop nor the restore loop. -/
theorem c8_apply_restore_roundtrip (M : GucModel) (gucs : List (GucName × GucValue))
    (s : GucState) (saved : List (Option GucValue))
    (hok : ruleGucsOk M s gucs = true)
    (hsnap : snapshotGucs M gucs s = .ok saved) :
    (applyGucs M gucs s).2 = none ∧
    (restoreGucs M (gucs.map Prod.fst) saved (applyGucs M gucs s).1).2 = none ∧
    (∀ n, (restoreGucs M (gucs.map Prod.fst) saved (applyGucs M gucs s).1).1 n = s n) ∧
    (∀ n, n ∉ gucs.map Prod.fst → (applyGucs M gucs s).1 n = s n) := by
  have hspec := ruleGucsOk_spec hok
  have hsaved : saved = gucs.map fun p => s p.1 := by
    rw [snapshotGucs_ok M gucs s fun p hp => (hspec p hp).1] at hsnap
    exact (Except.ok.inj hsnap).symm
  subst hsaved
  have hrest := restoreGucs_snapshot M gucs s (applyGucs M gucs s).1
    fun p hp => ⟨(hspec p hp).1, (hspec p hp).2.2⟩
  refine ⟨applyGucs_ok M gucs s fun p hp => ⟨(hspec p hp).1, (hspec p hp).2.1⟩,
    hrest.1, ?_, applyGucs_not_mem M gucs s⟩
  intro n
  rw [hrest.2 n]
  by_cases hmem : n ∈ gucs.map Prod.fst
  · rw [if_pos hmem]
  · rw [if_neg hmem]
    exact applyGucs_not_mem M gucs s n hmem

/-- Witness for C8 at a rule with a duplicated setting name. -/
theorem c8_witness :
    (restoreGucs allValidM ([("a", "1"), ("a", "2")].map Prod.fst)
      [some "0", some "0"] (applyGucs allValidM [("a", "1"), ("a", "2")] gucsAX).1).1 "a"
        = gucsAX "a" ∧
    (restoreGucs allValidM ([("a", "1"), ("a", "2")].map Prod.fst)
      [some "0", some "0"] (applyGucs allValidM [("a", "1"), ("a", "2")] gucsAX).1).1 "zz"
        = gucsAX "zz" :=
  ⟨(c8_apply_restore_roundtrip allValidM [("a", "1"), ("a", "2")] gucsAX
      [some "0", some "0"] (by decide) rfl).2.2.1 "a",
   (c8_apply_restore_roundtrip allValidM [("a", "1"), ("a", "2")] gucsAX
      [some "0", some "0"] (by decide) rfl).2.2.1 "zz"⟩

/-! ## Properties of the planner hook -/

theorem load_rules_gucs (store : StoreResult) (now : Int) (st : EngineState) :
    (load_rules store now st).1.gucs = st.gucs := by
  cases store <;> rfl

theorem load_rules_loading (store : StoreResult) (now : Int) (st : EngineState) :
    (load_rules store now st).1.loading_rules = false := by
  cases store <;> rfl

theorem po_refresh_step_gucs {R : Type} (cfg : EngineConfig) (env : Env R)
    (st : EngineState) : (po_refresh_step cfg env st).1.gucs = st.gucs := by
  rw [po_refresh_step]
  split_ifs
  · exact load_rules_gucs _ _ _
  · rfl

theorem po_refresh_step_trace {R : Type} (cfg : EngineConfig) (env : Env R)
    (st : EngineState) :
    (po_refresh_step cfg env st).2 =
      if cacheIsStale cfg env.now st then [Event.refreshEv] else [] := by
  rw [po_refresh_step]
  split_ifs <;> rfl

/-- **C1.** For every matched rule whose snapshot, apply and restore
assignments all succeed, a failure of the wrapped planner operation leaves
`po_planner` re-raising exactly the original failure (not swallowed, not
replaced), with every setting named in the rule already restored to its
snapshotted pre-apply value. -/
theorem c1_op_failure_restores_and_rethrows {R : Type} (cfg : EngineConfig)
    (env : Env R) (qid : Int) (qs : Option (List Char)) (st : EngineState)
    (rule : OverrideRule) (e : PgError) (sOp : GucState)
    (hen : cfg.po_enabled = true) (hld : st.loading_rules = false)
    (hmatch : find_matching_rule (po_refresh_step cfg env st).1.cached_rules qid qs
      = some rule)
    (hok : ruleGucsOk env.M st.gucs rule.gucs = true)
    (hop : env.op (applyGucs env.M rule.gucs st.gucs).1 = (.error e, sOp)) :
    (po_planner cfg env qid qs st).result = .error e ∧
    ∀ p ∈ rule.gucs, (po_planner cfg env qid qs st).state.gucs p.1 = st.gucs p.1 := by
  have hspec := ruleGucsOk_spec hok
  have hsnap : snapshotGucs env.M rule.gucs st.gucs
      = .ok (rule.gucs.map fun p => st.gucs p.1) :=
    snapshotGucs_ok env.M rule.gucs st.gucs fun p hp => (hspec p hp).1
  have happ2 : (applyGucs env.M rule.gucs st.gucs).2 = none :=
    applyGucs_ok env.M rule.gucs st.gucs fun p hp => ⟨(hspec p hp).1, (hspec p hp).2.1⟩
  have hrest := restoreGucs_snapshot env.M rule.gucs st.gucs sOp
    fun p hp => ⟨(hspec p hp).1, (hspec p hp).2.2⟩
  simp only [po_planner]
  rw [if_neg (by simp [hen, hld])]
  simp only [po_refresh_step_gucs, hmatch, hsnap, happ2, hop, hrest.1]
  constructor
  · trivial
  · intro p hp
    show (restoreGucs env.M (rule.gucs.map Prod.fst)
      (rule.gucs.map fun p => st.gucs p.1) sOp).1 p.1 = st.gucs p.1
    rw [hrest.2 p.1, if_pos (List.mem_map_of_mem Prod.fst hp)]

/-- Witness for C1: rule `ruleX` matched by queryId 42, operation failing
with `opError 7`; the failure is re-raised and `"x"` is back at `"0"`. -/
theorem c1_witness :
    (po_planner cfgStd envFail 42 none stX).result = .error (.opError 7) ∧
    (po_planner cfgStd envFail 42 none stX).state.gucs "x" = some "0" :=
  ⟨(c1_op_failure_restores_and_rethrows cfgStd envFail 42 none stX ruleX
      (.opError 7) (applyGucs envFail.M ruleX.gucs stX.gucs).1
      rfl rfl rfl (by decide) rfl).1,
   ((c1_op_failure_restores_and_rethrows cfgStd envFail 42 none stX ruleX
      (.opError 7) (applyGucs envFail.M ruleX.gucs stX.gucs).1
      rfl rfl rfl (by decide) rfl).2 ("x", "on") (by decide)).trans rfl⟩

/-- **C3, counterexample.** With rule `ruleAB` (settings `a` then `b`) and a
GUC machinery rejecting every value for `b`, the apply loop fails at `b` and
`po_planner` propagates that failure without attempting any restore: `a`
remains overridden at `"1"` although its pre-apply value was `"0"`, and the
trace shows neither a restore nor an operation invocation.  This refutes
"restore still attempts all remaining entries of the rule before
propagating". -/
theorem c3_counterexample :
    (po_planner cfgStd envFailRejectB 42 none stAB).result
      = .error (.invalidValue "b" "2") ∧
    (po_planner cfgStd envFailRejectB 42 none stAB).state.gucs "a" = some "1" ∧
    stAB.gucs "a" = some "0" ∧
    (po_planner cfgStd envFailRejectB 42 none stAB).trace
      = [Event.matchEv, Event.applyEv] :=
  ⟨rfl, rfl, rfl, rfl⟩

/-- **C3, amended.** An apply or restore assignment failure surfaces as a
failure of `run()`; but (i) on an apply failure no restore is attempted (the
partially applied state is left in place, the operation is never invoked);
(ii) if the operation fails and the `PG_CATCH` restore then fails, the
restore failure propagates instead of the original one, the loop stopping at
the failing entry; (iii) if the operation succeeds and the restore inside
`PG_TRY` fails, the whole restore sequence is re-attempted once from the
partially restored state and the first restore failure propagates; (iv) if
that re-attempt fails as well, its failure propagates instead. -/
theorem c3_amended_failure_paths :
    (∀ (R : Type) (cfg : EngineConfig) (env : Env R) (qid : Int)
      (qs : Option (List Char)) (st : EngineState) (rule : OverrideRule)
      (saved : List (Option GucValue)) (sA : GucState) (e : PgError),
      cfg.po_enabled = true → st.loading_rules = false →
      find_matching_rule (po_refresh_step cfg env st).1.cached_rules qid qs
        = some rule →
      snapshotGucs env.M rule.gucs st.gucs = .ok saved →
      applyGucs env.M rule.gucs st.gucs = (sA, some e) →
      (po_planner cfg env qid qs st).result = .error e ∧
      (po_planner cfg env qid qs st).state.gucs = sA ∧
      Event.restoreEv ∉ (po_planner cfg env qid qs st).trace ∧
      Event.invokeEv ∉ (po_planner cfg env qid qs st).trace) ∧
    (∀ (R : Type) (cfg : EngineConfig) (env : Env R) (qid : Int)
      (qs : Option (List Char)) (st : EngineState) (rule : OverrideRule)
      (saved : List (Option GucValue)) (sA sOp sR : GucState) (eOp eR : PgError),
      cfg.po_enabled = true → st.loading_rules = false →
      find_matching_rule (po_refresh_step cfg env st).1.cached_rules qid qs
        = some rule →
      snapshotGucs env.M rule.gucs st.gucs = .ok saved →
      applyGucs env.M rule.gucs st.gucs = (sA, none) →
      env.op sA = (.error eOp, sOp) →
      restoreGucs env.M (rule.gucs.map Prod.fst) saved sOp = (sR, some eR) →
      (po_planner cfg env qid qs st).result = .error eR ∧
      (po_planner cfg env qid qs st).state.gucs = sR) ∧
    (∀ (R : Type) (cfg : EngineConfig) (env : Env R) (qid : Int)
      (qs : Option (List Char)) (st : EngineState) (rule : OverrideRule)
      (saved : List (Option GucValue)) (sA sOp s1 s2 : GucState) (r : R)
      (e1 : PgError),
      cfg.po_enabled = true → st.loading_rules = false →
      find_matching_rule (po_refresh_step cfg env st).1.cached_rules qid qs
        = some rule →
      snapshotGucs env.M rule.gucs st.gucs = .ok saved →
      applyGucs env.M rule.gucs st.gucs = (sA, none) →
      env.op sA = (.ok r, sOp) →
      restoreGucs env.M (rule.gucs.map Prod.fst) saved sOp = (s1, some e1) →
      restoreGucs env.M (rule.gucs.map Prod.fst) saved s1 = (s2, none) →
      (po_planner cfg env qid qs st).result = .error e1 ∧
      (po_planner cfg env qid qs st).state.gucs = s2) ∧
    (∀ (R : Type) (cfg : EngineConfig) (env : Env R) (qid : Int)
      (qs : Option (List Char)) (st : EngineState) (rule : OverrideRule)
      (saved : List (Option GucValue)) (sA sOp s1 s2 : GucState) (r : R)
      (e1 e2 : PgError),
      cfg.po_enabled = true → st.loading_rules = false →
      find_matching_rule (po_refresh_step cfg env st).1.cached_rules qid qs
        = some rule →
      snapshotGucs env.M rule.gucs st.gucs = .ok saved →
      applyGucs env.M rule.gucs st.gucs = (sA, none) →
      env.op sA = (.ok r, sOp) →
      restoreGucs env.M (rule.gucs.map Prod.fst) saved sOp = (s1, some e1) →
      restoreGucs env.M (rule.gucs.map Prod.fst) saved s1 = (s2, some e2) →
      (po_planner cfg env qid qs st).result = .error e2 ∧
      (po_planner cfg env qid qs st).state.gucs = s2) := by
  refine ⟨?_, ?_, ?_, ?_⟩
  · intro R cfg env qid qs st rule saved sA e hen hld hmatch hsnap happly
    have ha1 : (applyGucs env.M rule.gucs st.gucs).1 = sA := by rw [happly]
    have ha2 : (applyGucs env.M rule.gucs st.gucs).2 = some e := by rw [happly]
    have hrun : po_planner cfg env qid qs st =
        { result := .error e,
          state := { (po_refresh_step cfg env st).1 with gucs := sA },
          trace := (po_refresh_step cfg env st).2 ++ [Event.matchEv, Event.applyEv] } := by
      simp only [po_planner]
      rw [if_neg (by simp [hen, hld])]
      simp only [po_refresh_step_gucs, hmatch, hsnap, ha2, ha1]
    rw [hrun]
    refine ⟨rfl, rfl, ?_, ?_⟩
    · rw [po_refresh_step_trace]
      split_ifs <;> simp
    · rw [po_refresh_step_trace]
      split_ifs <;> simp
  · intro R cfg env qid qs st rule saved sA sOp sR eOp eR hen hld hmatch hsnap
      happly hop hrestore
    have ha1 : (applyGucs env.M rule.gucs st.gucs).1 = sA := by rw [happly]
    have ha2 : (applyGucs env.M rule.gucs st.gucs).2 = none := by rw [happly]
    have ho1 : (env.op sA).1 = .error eOp := by rw [hop]
    have ho2 : (env.op sA).2 = sOp := by rw [hop]
    have hr1 : (restoreGucs env.M (rule.gucs.map Prod.fst) saved sOp).1 = sR := by
      rw [hrestore]
    have hr2 : (restoreGucs env.M (rule.gucs.map Prod.fst) saved sOp).2 = some eR := by
      rw [hrestore]
    have hrun : po_planner cfg env qid qs st =
        { result := .error eR,
          state := { (po_refresh_step cfg env st).1 with gucs := sR },
          trace := (po_refresh_step cfg env st).2 ++
            [Event.matchEv, Event.applyEv, Event.invokeEv, Event.restoreEv] } := by
      simp only [po_planner]
      rw [if_neg (by simp [hen, hld])]
      simp only [po_refresh_step_gucs, hmatch, hsnap, ha2, ha1, ho1, ho2, hr2, hr1]
    rw [hrun]
    exact ⟨rfl, rfl⟩
  · intro R cfg env qid qs st rule saved sA sOp s1 s2 r e1 hen hld hmatch hsnap
      happly hop hres1 hres2
    have ha1 : (applyGucs env.M rule.gucs st.gucs).1 = sA := by rw [happly]
    have ha2 : (applyGucs env.M rule.gucs st.gucs).2 = none := by rw [happly]
    have ho1 : (env.op sA).1 = .ok r := by rw [hop]
    have ho2 : (env.op sA).2 = sOp := by rw [hop]
    have hr11 : (restoreGucs env.M (rule.gucs.map Prod.fst) saved sOp).1 = s1 := by
      rw [hres1]
    have hr12 : (restoreGucs env.M (rule.gucs.map Prod.fst) saved sOp).2 = some e1 := by
      rw [hres1]
    have hr21 : (restoreGucs env.M (rule.gucs.map Prod.fst) saved s1).1 = s2 := by
      rw [hres2]
    have hr22 : (restoreGucs env.M (rule.gucs.map Prod.fst) saved s1).2 = none := by
      rw [hres2]
    have hrun : po_planner cfg env qid qs st =
        { result := .error e1,
          state := { (po_refresh_step cfg env st).1 with gucs := s2 },
          trace := (po_refresh_step cfg env st).2 ++
            [Event.matchEv, Event.applyEv, Event.invokeEv, Event.restoreEv] } := by
      simp only [po_planner]
      rw [if_neg (by simp [hen, hld])]
      simp only [po_refresh_step_gucs, hmatch, hsnap, ha2, ha1, ho1, ho2, hr12,
        hr11, hr22, hr21]
    rw [hrun]
    exact ⟨rfl, rfl⟩
  · intro R cfg env qid qs st rule saved sA sOp s1 s2 r e1 e2 hen hld hmatch hsnap
      happly hop hres1 hres2
    have ha1 : (applyGucs env.M rule.gucs st.gucs).1 = sA := by rw [happly]
    have ha2 : (applyGucs env.M rule.gucs st.gucs).2 = none := by rw [happly]
    have ho1 : (env.op sA).1 = .ok r := by rw [hop]
    have ho2 : (env.op sA).2 = sOp := by rw [hop]
    have hr11 : (restoreGucs env.M (rule.gucs.map Prod.fst) saved sOp).1 = s1 := by
      rw [hres1]
    have hr12 : (restoreGucs env.M (rule.gucs.map Prod.fst) saved sOp).2 = some e1 := by
      rw [hres1]
    have hr21 : (restoreGucs env.M (rule.gucs.map Prod.fst) saved s1).1 = s2 := by
      rw [hres2]
    have hr22 : (restoreGucs env.M (rule.gucs.map Prod.fst) saved s1).2 = some e2 := by
      rw [hres2]
    have hrun : po_planner cfg env qid qs st =
        { result := .error e2,
          state := { (po_refresh_step cfg env st).1 with gucs := s2 },
          trace := (po_refresh_step cfg env st).2 ++
            [Event.matchEv, Event.applyEv, Event.invokeEv, Event.restoreEv] } := by
      simp only [po_planner]
      rw [if_neg (by simp [hen, hld])]
      simp only [po_refresh_step_gucs, hmatch, hsnap, ha2, ha1, ho1, ho2, hr12,
        hr11, hr22, hr21]
    rw [hrun]
    exact ⟨rfl, rfl⟩

/-- Witness for the amended C3: part (i) at the concrete apply-failure
scenario. -/
theorem c3_witness :
    (po_planner cfgStd envFailRejectB 42 none stAB).result
      = .error (.invalidValue "b" "2") ∧
    (po_planner cfgStd envFailRejectB 42 none stAB).state.gucs
      = (applyGucs rejectBM ruleAB.gucs stAB.gucs).1 ∧
    Event.restoreEv ∉ (po_planner cfgStd envFailRejectB 42 none stAB).trace ∧
    Event.invokeEv ∉ (po_planner cfgStd envFailRejectB 42 none stAB).trace :=
  c3_amended_failure_paths.1 Nat cfgStd envFailRejectB 42 none stAB ruleAB
    [some "0", none] (applyGucs rejectBM ruleAB.gucs stAB.gucs).1
    (.invalidValue "b" "2") rfl rfl rfl rfl rfl

/-- **C2, counterexample.** On a refresh whose `SPI_connect` fails, a warning
is reported and the cache is emptied, but `cache_loaded_at` is *not* advanced
to the current time (here it stays 5 instead of becoming 100), refuting
"loadedAt is still advanced to the current time". -/
theorem c2_counterexample :
    (load_rules .connectFail 100 stX).1.cache_loaded_at = 5 ∧
    (load_rules .connectFail 100 stX).1.cache_loaded_at ≠ 100 ∧
    (load_rules .connectFail 100 stX).1.cached_rules = [] ∧
    (load_rules .connectFail 100 stX).2.isSome = true :=
  ⟨rfl, by decide, rfl, rfl⟩

/-- **C2, amended.** On a refresh whose store connection or rule query fails,
the cache is treated as holding zero rules and a warning is reported (not
raised), but `loadedAt` is left unchanged, so the next staleness check
retries the refresh.  Only on the missing-backing-table path (and on a
successful load) is `loadedAt` advanced to the current time — and there no
warning is reported; after that, a staleness check within the TTL does not
trigger another refresh. -/
theorem c2_amended_store_failure_paths :
    ∀ (now : Int) (st : EngineState),
      ((load_rules .connectFail now st).1.cached_rules = [] ∧
       (load_rules .connectFail now st).1.cache_loaded_at = st.cache_loaded_at ∧
       (load_rules .connectFail now st).2.isSome = true) ∧
      (∀ code : Int,
        (load_rules (.queryFail code) now st).1.cached_rules = [] ∧
        (load_rules (.queryFail code) now st).1.cache_loaded_at = st.cache_loaded_at ∧
        (load_rules (.queryFail code) now st).2.isSome = true) ∧
      ((load_rules .tableMissing now st).1.cached_rules = [] ∧
       (load_rules .tableMissing now st).1.cache_loaded_at = now ∧
       (load_rules .tableMissing now st).2 = none) ∧
      (∀ (cfg : EngineConfig) (later : Int), now ≠ 0 →
        TimestampDifferenceExceeds now later (cfg.po_cache_ttl * 1000) = false →
        cacheIsStale cfg later (load_rules .tableMissing now st).1 = false) := by
  intro now st
  refine ⟨⟨rfl, rfl, rfl⟩, fun code => ⟨rfl, rfl, rfl⟩, ⟨rfl, rfl, rfl⟩, ?_⟩
  intro cfg later hnz hT
  have hload : (load_rules .tableMissing now st).1.cache_loaded_at = now := rfl
  rw [cacheIsStale, hload, hT]
  simp [hnz]

/-- **C6.** An enabled, non-reentrant `po_planner` call performs at most one
refresh, and performs one exactly when the cache is stale: no load has
happened yet (`cache_loaded_at = 0`) or at least `ttl` seconds (in
microseconds, `ttl * 1000000`) have passed since the last load. -/
theorem c6_refresh_iff_stale {R : Type} (cfg : EngineConfig) (env : Env R)
    (qid : Int) (qs : Option (List Char)) (st : EngineState)
    (hen : cfg.po_enabled = true) (hld : st.loading_rules = false) :
    (po_planner cfg env qid qs st).trace.count Event.refreshEv ≤ 1 ∧
    ((po_planner cfg env qid qs st).trace.count Event.refreshEv = 1 ↔
      (st.cache_loaded_at = 0 ∨
        env.now - st.cache_loaded_at ≥ cfg.po_cache_ttl * 1000000)) := by
  have hcount : (po_planner cfg env qid qs st).trace.count Event.refreshEv
      = (po_refresh_step cfg env st).2.count Event.refreshEv := by
    simp only [po_planner]
    rw [if_neg (by simp [hen, hld])]
    repeat' split
    all_goals simp [List.count_append, List.count_cons, List.count_nil]
  have hstale : cacheIsStale cfg env.now st = true ↔
      (st.cache_loaded_at = 0 ∨
        env.now - st.cache_loaded_at ≥ cfg.po_cache_ttl * 1000000) := by
    rw [cacheIsStale, TimestampDifferenceExceeds]
    simp only [Bool.or_eq_true, decide_eq_true_eq]
    constructor
    · rintro (h | h)
      · exact Or.inl h
      · right; omega
    · rintro (h | h)
      · exact Or.inl h
      · right; omega
  rw [hcount, po_refresh_step_trace]
  constructor
  · split_ifs <;> simp
  · split_ifs with hs
    · have h1 : ([Event.refreshEv] : List Event).count Event.refreshEv = 1 := rfl
      rw [h1]
      exact ⟨fun _ => hstale.mp hs, fun _ => rfl⟩
    · have h0 : ([] : List Event).count Event.refreshEv = 0 := rfl
      rw [h0]
      constructor
      · intro h01
        exact absurd h01 (by omega)
      · intro hP
        exact absurd (hstale.mpr hP) hs

/-- Witness for C6: with a never-loaded cache the single refresh fires and
the staleness condition holds. -/
theorem c6_witness :
    (po_planner cfgStd envOk 42 none stStale).trace.count Event.refreshEv ≤ 1 ∧
    ((po_planner cfgStd envOk 42 none stStale).trace.count Event.refreshEv = 1 ↔
      (stStale.cache_loaded_at = 0 ∨
        envOk.now - stStale.cache_loaded_at ≥ cfgStd.po_cache_ttl * 1000000)) :=
  c6_refresh_iff_stale cfgStd envOk 42 none stStale rfl rfl

/-- **C7.** While the reentrancy flag is set, the interception point invokes
the wrapped operation directly: no refresh (even on a stale cache), no
matching, no overrides; the cache state is untouched and the trace records
nothing but the invocation, so the store lookup of an in-progress refresh can
never start a nested refresh. -/
theorem c7_reentrancy_guard_direct_invoke {R : Type} (cfg : EngineConfig)
    (env : Env R) (qid : Int) (qs : Option (List Char)) (st : EngineState)
    (hld : st.loading_rules = true) :
    (po_planner cfg env qid qs st).result = (env.op st.gucs).1 ∧
    (po_planner cfg env qid qs st).state.gucs = (env.op st.gucs).2 ∧
    (po_planner cfg env qid qs st).state.cached_rules = st.cached_rules ∧
    (po_planner cfg env qid qs st).state.cache_loaded_at = st.cache_loaded_at ∧
    (po_planner cfg env qid qs st).state.loading_rules = true ∧
    (po_planner cfg env qid qs st).trace = [Event.invokeEv] := by
  have hrun : po_planner cfg env qid qs st =
      { result := (env.op st.gucs).1,
        state := { st with gucs := (env.op st.gucs).2 },
        trace := [Event.invokeEv] } := by
    simp only [po_planner]
    rw [if_pos (Or.inr hld)]
  rw [hrun]
  exact ⟨rfl, rfl, rfl, rfl, hld, rfl⟩

/-- Witness for C7: a stale cache (`cache_loaded_at = 0`) together with the
reentrancy flag: the call passes straight through. -/
theorem c7_witness :
    (po_planner cfgStd envOk 42 none stLoading).result
      = (envOk.op stLoading.gucs).1 ∧
    (po_planner cfgStd envOk 42 none stLoading).state.gucs
      = (envOk.op stLoading.gucs).2 ∧
    (po_planner cfgStd envOk 42 none stLoading).state.cached_rules
      = stLoading.cached_rules ∧
    (po_planner cfgStd envOk 42 none stLoading).state.cache_loaded_at
      = stLoading.cache_loaded_at ∧
    (po_planner cfgStd envOk 42 none stLoading).state.loading_rules = true ∧
    (po_planner cfgStd envOk 42 none stLoading).trace = [Event.invokeEv] :=
  c7_reentrancy_guard_direct_invoke cfgStd envOk 42 none stLoading rfl

/-- **C9.** With the enabled flag off, `po_planner` invokes the wrapped
operation directly and returns its outcome: no refresh, no matching, no
overrides, no engine error path; the cache state is untouched and the trace
records nothing but the invocation. -/
theorem c9_disabled_direct_invoke {R : Type} (cfg : EngineConfig)
    (env : Env R) (qid : Int) (qs : Option (List Char)) (st : EngineState)
    (hen : cfg.po_enabled = false) :
    (po_planner cfg env qid qs st).result = (env.op st.gucs).1 ∧
    (po_planner cfg env qid qs st).state.gucs = (env.op st.gucs).2 ∧
    (po_planner cfg env qid qs st).state.cached_rules = st.cached_rules ∧
    (po_planner cfg env qid qs st).state.cache_loaded_at = st.cache_loaded_at ∧
    (po_planner cfg env qid qs st).state.loading_rules = st.loading_rules ∧
    (po_planner cfg env qid qs st).trace = [Event.invokeEv] := by
  have hrun : po_planner cfg env qid qs st =
      { result := (env.op st.gucs).1,
        state := { st with gucs := (env.op st.gucs).2 },
        trace := [Event.invokeEv] } := by
    simp only [po_planner]
    rw [if_pos (Or.inl (by simp [hen]))]
  rw [hrun]
  exact ⟨rfl, rfl, rfl, rfl, rfl, rfl⟩

/-- Witness for C9: disabled configuration on a state with a matching cached
rule and a stale clock — still a bare pass-through. -/
theorem c9_witness :
    (po_planner cfgDisabled envOk 42 none stStale).result
      = (envOk.op stStale.gucs).1 ∧
    (po_planner cfgDisabled envOk 42 none stStale).state.gucs
      = (envOk.op stStale.gucs).2 ∧
    (po_planner cfgDisabled envOk 42 none stStale).state.cached_rules
      = stStale.cached_rules ∧
    (po_planner cfgDisabled envOk 42 none stStale).state.cache_loaded_at
      = stStale.cache_loaded_at ∧
    (po_planner cfgDisabled envOk 42 none stStale).state.loading_rules
      = stStale.loading_rules ∧
    (po_planner cfgDisabled envOk 42 none stStale).trace = [Event.invokeEv] :=
  c9_disabled_direct_invoke cfgDisabled envOk 42 none stStale rfl

/-- **C10.** Every normal return of `load_rules` — connection failure,
missing rules table, failing rule query, or a (possibly empty) successful
load — leaves the reentrancy flag `loading_rules` equal to `false`. -/
theorem c10_loading_rules_cleared (store : StoreResult) (now : Int)
    (st : EngineState) : (load_rules store now st).1.loading_rules = false := by
  cases store <;> rfl

/-- Witness for the amended C2: the missing-table path at time 9, checked
again at time 10 (within the TTL). -/
theorem c2_witness :
    (load_rules .tableMissing 9 stX).1.cached_rules = [] ∧
    (load_rules .tableMissing 9 stX).1.cache_loaded_at = 9 ∧
    (load_rules .tableMissing 9 stX).2 = none ∧
    cacheIsStale cfgStd 10 (load_rules .tableMissing 9 stX).1 = false :=
  ⟨(c2_amended_store_failure_paths 9 stX).2.2.1.1,
   (c2_amended_store_failure_paths 9 stX).2.2.1.2.1,
   (c2_amended_store_failure_paths 9 stX).2.2.1.2.2,
   (c2_amended_store_failure_paths 9 stX).2.2.2 cfgStd 10 (by decide) (by decide)⟩
